import Mathlib

/-!
Verification of the dnscontrol provider sources against their specification.

The development shallowly embeds two source files:
  * `src/providers/gandiv5/convert.go` — the native ⇄ canonical record
    adapter for the Gandi LiveDNS provider (`nativeToRecords`,
    `recordsToNative`);
  * `src/providers/hetzner/api.go` — the Hetzner API client
    (`GetRecords` pagination), the correction planner
    (`GetDomainCorrections`) and zone accessors (`GetNameservers`,
    `GetZoneRecords`).

Code of the repository that the two files call but that is not part of the
sources (the `models` package, `pkg/diff`, `pkg/txtutil`) is modelled from
the specification; every such definition carries a doc comment starting
with `Modelled from the spec:`.

Machine integers are embedded as `Nat`/`Int` with explicit `% 2^32` where
Go converts between integer widths.
-/

namespace Models

/-- Modelled from the spec: `models.RecordConfig.SetLabel` (not in src)
stores a label in short form relative to the origin: the empty label, the
literal origin (with or without a trailing dot) and `@` all denote the
zone apex and are stored as `@`; a label ending in `.origin` is shortened
by stripping that suffix; any other label is stored as is. -/
def setLabel (name origin : String) : String :=
  if name = "@" ∨ name = "" ∨ name = origin ∨ name = origin ++ "." then "@"
  else if name.endsWith ("." ++ origin) then name.dropRight (origin.length + 1)
  else name

/-- Modelled from the spec: the character-level escaping performed by
`txtutil.EncodeQuoted` (not in src): a backslash or double quote occurring
in a TXT value is preceded by a backslash. -/
def escapeChars : List Char → List Char
  | [] => []
  | c :: cs =>
    if c = '\\' ∨ c = '\"' then '\\' :: c :: escapeChars cs
    else c :: escapeChars cs

/-- Modelled from the spec: `txtutil.EncodeQuoted` (not in src) renders a
TXT value in quoted presentation form: the escaped value surrounded by
double quotes. -/
def encodeQuoted (s : String) : String :=
  String.mk ('\"' :: escapeChars s.data ++ ['\"'])

/-- Modelled from the spec: the body scanner of `txtutil.ParseQuoted`
(not in src): consumes escaped characters until the closing double quote;
a stray quote, a stray backslash or a missing closing quote is malformed. -/
def unquoteBody : List Char → Option (List Char)
  | [] => none
  | c :: cs =>
    if c = '\"' then (if cs = [] then some [] else none)
    else if c = '\\' then
      match cs with
      | [] => none
      | c2 :: cs2 =>
        if c2 = '\\' ∨ c2 = '\"' then (unquoteBody cs2).map (c2 :: ·) else none
    else (unquoteBody cs).map (c :: ·)

/-- Modelled from the spec: `txtutil.ParseQuoted` (not in src) parses a
quoted TXT presentation value back into the raw value, undoing the
escaping; it fails on values that are not a single well-formed quoted
string. -/
def parseQuoted (s : String) : Option String :=
  match s.data with
  | '\"' :: rest => (unquoteBody rest).map String.mk
  | _ => none

/-- Modelled from the spec: a numeric field such as an MX priority — a
nonempty run of decimal digits. -/
def numericField (l : List Char) : Bool :=
  !l.isEmpty && l.all Char.isDigit

/-- Splitting a character list on a separator (the presentation-format
field splitter). -/
def splitFields (sep : Char) : List Char → List (List Char)
  | [] => [[]]
  | c :: cs =>
    match splitFields sep cs with
    | [] => []
    | f :: rest => if c = sep then [] :: f :: rest else (c :: f) :: rest

/-- Modelled from the spec: `models.RecordConfig.PopulateFromStringFunc`
(not in src) parses a native value under its declared type into the
canonical value: TXT values are parsed with the supplied quote-aware
parser, an MX value must have at least two space-separated fields of
which the first is a numeric priority, and other types accept the
presentation string as the canonical value. `none` signals a
`MalformedRecord`. -/
def parseValue (rtype value : String) : Option String :=
  if rtype = "TXT" then parseQuoted value
  else if rtype = "MX" then
    match splitFields ' ' value.data with
    | prio :: _ :: _ => if numericField prio then some value else none
    | _ => none
  else some value

end Models

namespace GandiV5

/-- `livedns.DomainRecord` as used by `convert.go`: an RRset carrying a
type tag, a TTL (a Go `int`, embedded as `Int`), a name and the list of
values sharing that name and type. -/
structure DomainRecord where
  rrsetType : String
  rrsetTTL : Int
  rrsetName : String
  rrsetValues : List String
deriving Repr, DecidableEq

/-- Modelled from the spec: the part of `models.RecordConfig` (not in src)
that `convert.go` uses — a canonical record with a short label, a type, a
`uint32` TTL, one canonical value, and the opaque native handle
(`Original`) pointing back at the RRset a decoded record came from. -/
structure RecordConfig where
  label : String
  rtype : String
  ttl : Nat
  value : String
  original : Option DomainRecord
deriving Repr, DecidableEq

/-- Modelled from the spec: `models.RecordConfig.Key` (not in src) derives
the record's identity from its name and type; for one fixed zone this is
the (label, type) pair. -/
def RecordConfig.key (r : RecordConfig) : String × String :=
  (r.label, r.rtype)

/-- Go's `uint32(i)` conversion of an `int`: truncation to the low 32
bits, i.e. the nonnegative remainder modulo `2^32`. -/
def uint32ofInt (i : Int) : Nat :=
  (i % 4294967296).toNat

/-- Modelled from the spec: `RecordConfig.GetTargetCombinedFunc` with
`txtutil.EncodeQuoted` (not in src) renders the canonical value in the
provider's presentation form: TXT values are quoted, any other type's
canonical value is already its presentation string. -/
def encodeValue (r : RecordConfig) : String :=
  if r.rtype = "TXT" then Models.encodeQuoted r.value else r.value

/-- A decode error carries the offending record's label, type and value
(spec: "the error must name the offending label/type/value"). -/
structure ParseErr where
  label : String
  rtype : String
  value : String
deriving Repr, DecidableEq

/-- The error string returned from `nativeToRecords`: the wrapper text
from `convert.go` around the inner parse error naming label, type and
value. -/
def ParseErr.message (e : ParseErr) : String :=
  "unparsable record received from gandi: unparsable record " ++
    e.label ++ " " ++ e.rtype ++ " " ++ e.value

/-- One iteration of the loop body of `nativeToRecords`: build the
`RecordConfig` for a single value of the RRset, or fail. The `ALIAS`
branch stores the raw value; every other type goes through
`PopulateFromStringFunc`. -/
def decodeOne (n : DomainRecord) (origin : String) (value : String) :
    Except ParseErr RecordConfig :=
  if n.rrsetType = "ALIAS" then
    .ok { label := Models.setLabel n.rrsetName origin, rtype := "ALIAS",
          ttl := uint32ofInt n.rrsetTTL, value := value, original := some n }
  else
    match Models.parseValue n.rrsetType value with
    | some v =>
      .ok { label := Models.setLabel n.rrsetName origin, rtype := n.rrsetType,
            ttl := uint32ofInt n.rrsetTTL, value := v, original := some n }
    | none =>
      .error { label := Models.setLabel n.rrsetName origin,
               rtype := n.rrsetType, value := value }

/-- The loop of `nativeToRecords` over `n.RrsetValues`: on the first value
that fails to parse the function returns the error and no records. -/
def decodeValues (n : DomainRecord) (origin : String) :
    List String → Except ParseErr (List RecordConfig)
  | [] => .ok []
  | v :: vs =>
    match decodeOne n origin v with
    | .error e => .error e
    | .ok rc => (decodeValues n origin vs).map (fun rcs => rc :: rcs)

/-- `nativeToRecords` from `convert.go`: split one Gandi RRset into one
canonical record per value. -/
def nativeToRecords (n : DomainRecord) (origin : String) :
    Except ParseErr (List RecordConfig) :=
  decodeValues n origin n.rrsetValues

/-- Decoding a whole native listing: each RRset decoded with the same
origin, results concatenated; the first error aborts. -/
def decodeAll (origin : String) :
    List DomainRecord → Except ParseErr (List RecordConfig)
  | [] => .ok []
  | n :: ns =>
    match nativeToRecords n origin with
    | .error e => .error e
    | .ok rcs => (decodeAll origin ns).map (fun rest => rcs ++ rest)

/-- The label substitution at the top of the loop of `recordsToNative`:
a record whose label is the apex marker `@` is encoded with the literal
origin string. -/
def substApex (label origin : String) : String :=
  if label = "@" then origin else label

/-- Allocation of a new `ZoneRecord` in `recordsToNative` for the first
record of a key. -/
def newZr (r : RecordConfig) (origin : String) : DomainRecord :=
  { rrsetType := r.rtype
    rrsetTTL := (r.ttl : Int)
    rrsetName := substApex r.label origin
    rrsetValues := [encodeValue r] }

/-- The else-branch of the loop of `recordsToNative`: append the record's
encoded value to the existing RRset; when the TTLs differ, keep the
smaller of the record's TTL and the RRset's TTL (after a warning). -/
def updateZr (zr : DomainRecord) (r : RecordConfig) : DomainRecord :=
  let zr2 : DomainRecord := { zr with rrsetValues := zr.rrsetValues ++ [encodeValue r] }
  if r.ttl ≠ uint32ofInt zr2.rrsetTTL then
    if r.ttl < uint32ofInt zr2.rrsetTTL then { zr2 with rrsetTTL := (r.ttl : Int) }
    else zr2
  else zr2

/-- Lookup in the `keys` map of `recordsToNative`, embedded as an
insertion-ordered association list (a Go map's contents are exactly the
inserted key/value pairs). -/
def lookupZr : List ((String × String) × DomainRecord) → (String × String) →
    Option DomainRecord
  | [], _ => none
  | (k, zr) :: rest, key => if k = key then some zr else lookupZr rest key

/-- In-place mutation through the `*livedns.DomainRecord` stored in the
map: replace the entry of the given key. -/
def updateGroup (f : DomainRecord → DomainRecord) :
    List ((String × String) × DomainRecord) → (String × String) →
    List ((String × String) × DomainRecord)
  | [], _ => []
  | (k, zr) :: rest, key =>
    if k = key then (k, f zr) :: rest else (k, zr) :: updateGroup f rest key

/-- The body of the main loop of `recordsToNative`: allocate a fresh
RRset for an unseen key, otherwise extend the existing one. -/
def insertRecord (keys : List ((String × String) × DomainRecord))
    (r : RecordConfig) (origin : String) :
    List ((String × String) × DomainRecord) :=
  match lookupZr keys r.key with
  | none => keys ++ [(r.key, newZr r origin)]
  | some _ => updateGroup (fun zr => updateZr zr r) keys r.key

/-- The `keys` map built by the main loop of `recordsToNative`, with its
contents in insertion order. -/
def recordsToNativeGroups (rcs : List RecordConfig) (origin : String) :
    List ((String × String) × DomainRecord) :=
  rcs.foldl (fun keys r => insertRecord keys r origin) []

/-- `recordsToNative` from `convert.go`. The final loop
`for _, zr := range keys` iterates a Go map, whose iteration order is
unspecified; it is embedded as an explicit enumeration `order` of the
group indices, constrained in the theorems to be a permutation of
`List.range` of the number of groups. -/
def recordsToNative (rcs : List RecordConfig) (origin : String)
    (order : List Nat) : List DomainRecord :=
  order.filterMap (fun i =>
    ((recordsToNativeGroups rcs origin).get? i).map Prod.snd)

/-- The canonical records of `rcs` sharing the key `k` (in supply
order). -/
def groupOf (rcs : List RecordConfig) (k : String × String) :
    List RecordConfig :=
  rcs.filter (fun r => decide (r.key = k))

/-- The distinct keys of `rcs` in order of first occurrence — the
insertion order of the groups. -/
def firstKeys (rcs : List RecordConfig) : List (String × String) :=
  rcs.foldl (fun ks r => if r.key ∈ ks then ks else ks ++ [r.key]) []

/-- Folding the whole group into the RRset allocated for its first
record. -/
def extendZr (zr : DomainRecord) (grp : List RecordConfig) : DomainRecord :=
  grp.foldl updateZr zr

/-- The RRset `recordsToNative` ends up holding for a group: fresh
allocation from the first record, extension by the rest. -/
def freshZr (origin : String) : List RecordConfig → Option DomainRecord
  | [] => none
  | r :: rest => some (extendZr (newZr r origin) rest)

/-- The TTL evolution of one RRset across the loop, exactly as the code
computes it. -/
def ttlStep (cur : Int) (t : Nat) : Int :=
  if t ≠ uint32ofInt cur then
    if t < uint32ofInt cur then (t : Int) else cur
  else cur

/-- The minimum of a list of naturals, `none` for the empty list. -/
def minList : List Nat → Option Nat
  | [] => none
  | t :: ts => some (ts.foldl min t)

/-- A canonical record relative to an origin, per the specification's
record model: the label is in short form (the apex is the marker `@`, so
a non-apex label is neither empty, nor the origin itself, nor carries the
origin as a suffix), the TTL fits in a `uint32`, and the value parses
back under its declared type to itself (`ALIAS` values are taken raw). -/
def Canonical (origin : String) (r : RecordConfig) : Prop :=
  (r.label = "@" ∨
    (r.label ≠ "" ∧ r.label ≠ origin ∧ r.label ≠ origin ++ "." ∧
      r.label.endsWith ("." ++ origin) = false)) ∧
  r.ttl < 4294967296 ∧
  (r.rtype = "ALIAS" ∨
    Models.parseValue r.rtype (encodeValue r) = some r.value)

instance (origin : String) (r : RecordConfig) :
    Decidable (Canonical origin r) := by
  unfold Canonical
  infer_instance

/-- The semantic content of a canonical record: label, type, TTL and
value — the fields compared for the round-trip (the opaque native handle
is owned by the adapter and not part of record equality). -/
def content (r : RecordConfig) : String × String × Nat × String :=
  (r.label, r.rtype, r.ttl, r.value)

/-- The canonical record that decoding gives back for an encoded record
of a singleton group. -/
def decodedOf (origin : String) (r : RecordConfig) : RecordConfig :=
  { label := r.label, rtype := r.rtype, ttl := r.ttl, value := r.value,
    original := some (newZr r origin) }

/-- Example record: an A record at `www`. -/
def exA : RecordConfig :=
  { label := "www", rtype := "A", ttl := 300, value := "1.2.3.4",
    original := none }

/-- Example record: an A record at `zzz`, a second distinct key. -/
def exB : RecordConfig :=
  { label := "zzz", rtype := "A", ttl := 600, value := "9.9.9.9",
    original := none }

/-- Example record: an apex TXT record whose value embeds a quote. -/
def exTxt : RecordConfig :=
  { label := "@", rtype := "TXT", ttl := 600, value := "he\"llo",
    original := none }

/-- Example record: same (label, type) key as `exT2` below, TTL 300. -/
def exT1 : RecordConfig :=
  { label := "www", rtype := "A", ttl := 300, value := "1.2.3.4",
    original := none }

/-- Example record: same (label, type) key as `exT1`, TTL 3600. -/
def exT2 : RecordConfig :=
  { label := "www", rtype := "A", ttl := 3600, value := "5.6.7.8",
    original := none }

/-- Example RRset: two A values at `www`. -/
def exRRsetA : DomainRecord :=
  { rrsetType := "A", rrsetTTL := 300, rrsetName := "www",
    rrsetValues := ["1.2.3.4", "5.6.7.8"] }

/-- The canonical records `exRRsetA` decodes to. -/
def exDecodedA : List RecordConfig :=
  [{ label := "www", rtype := "A", ttl := 300, value := "1.2.3.4",
     original := some exRRsetA },
   { label := "www", rtype := "A", ttl := 300, value := "5.6.7.8",
     original := some exRRsetA }]

/-- Example RRset with a malformed MX value (non-numeric priority). -/
def exRRsetMx : DomainRecord :=
  { rrsetType := "MX", rrsetTTL := 300, rrsetName := "www",
    rrsetValues := ["ten mail.example.com."] }

end GandiV5

namespace Hetzner

/-- The Hetzner native `Record` from `api.go` (the `Type` field is named
`rtype` because `Type` is reserved in Lean). -/
structure Record where
  rtype : String
  id : String
  zoneId : String
  name : String
  value : String
  ttl : Nat
deriving Repr, DecidableEq

/-- The Hetzner `Zone` from `api.go`, restricted to the fields the
embedded functions read. -/
structure Zone where
  id : String
  name : String
  ns : List String
  ttl : Nat
deriving Repr, DecidableEq

/-- The pagination part of the `Meta` returned with every list
response. -/
structure Meta where
  page : Nat
  lastPage : Nat
deriving Repr, DecidableEq

/-- The server side of `request` for the `/records` listing: the zone's
records split into 1-indexed pages; requesting page `p` unmarshals page
`p`'s records into the response and yields the pagination meta. -/
def requestRecords (pages : List (List Record)) (p : Nat) :
    List Record × Meta :=
  (((pages.get? (p - 1)).getD []), { page := p, lastPage := pages.length })

/-- The pagination loop of `GetRecords` (`api.go` lines 215-227). While
`meta.Pagination.Page < meta.Pagination.LastPage` the code requests the
next page into `extraResponse` (a copy of `response`) and then appends
`extraResponse`'s records to `extraResponse` itself — `response` is never
extended, so the loop only advances `meta`. The loop runs once per
remaining page; `fuel` counts those iterations. -/
def getRecordsLoop (pages : List (List Record)) :
    Nat → Meta → List Record → List Record
  | 0, _, response => response
  | fuel + 1, meta, response =>
    if meta.page < meta.lastPage then
      let p := meta.page + 1
      let (recs, meta2) := requestRecords pages p
      let extraResponse := response
      let extraResponse := recs
      let _ := extraResponse ++ extraResponse
      getRecordsLoop pages fuel meta2 response
    else response

/-- `GetRecords` from `api.go`: the initial request fills `response` with
page 1, then the pagination loop runs; the function returns
`response.Records`. -/
def GetRecords (pages : List (List Record)) : List Record :=
  let (recs, meta) := requestRecords pages 1
  let response := recs
  getRecordsLoop pages (meta.lastPage - meta.page) meta response

/-- Modelled from the spec: the part of `models.RecordConfig` (not in
src) that the Hetzner provider uses — type, short label (`Name`), the
combined target value in presentation form, a `uint32` TTL, and the
native `Record` the existing record came from (`Original`; the zero
record for desired records, whose `Original` is never read). -/
structure RecordConfig where
  rtype : String
  name : String
  value : String
  ttl : Nat
  original : Record
deriving Repr, DecidableEq

/-- Modelled from the spec: the part of `models.DomainConfig` (not in
src) that `GetDomainCorrections` uses — the domain name and the desired
canonical records (already punycoded and normalized). -/
structure DomainConfig where
  name : String
  records : List RecordConfig
deriving Repr, DecidableEq

/-- Modelled from the spec: the derived record key — label plus type. -/
def keyOf (r : RecordConfig) : String × String :=
  (r.name, r.rtype)

/-- Modelled from the spec: keep the earliest-seen record per key
(deterministic resolution of duplicate existing keys). -/
def dedupByKeyGo (seen : List (String × String)) :
    List RecordConfig → List RecordConfig
  | [] => []
  | e :: rest =>
    if keyOf e ∈ seen then dedupByKeyGo seen rest
    else e :: dedupByKeyGo (keyOf e :: seen) rest

/-- Modelled from the spec: the extra (non-earliest) records of keys that
collide — treated as duplicate deletions. -/
def dupExtrasGo (seen : List (String × String)) :
    List RecordConfig → List RecordConfig
  | [] => []
  | e :: rest =>
    if keyOf e ∈ seen then e :: dupExtrasGo seen rest
    else dupExtrasGo (keyOf e :: seen) rest

/-- Modelled from the spec: comparison of the semantically relevant
fields (type, target value, TTL) of a desired and an existing record. -/
def sameContent (d e : RecordConfig) : Bool :=
  d.rtype == e.rtype && d.value == e.value && d.ttl == e.ttl

/-- The four buckets of `diff.IncrementalDiff`: unchanged and to-modify
carry (desired, existing) pairs, to-create carries desired records,
to-delete carries existing records. -/
structure DiffResult where
  unchanged : List (RecordConfig × RecordConfig)
  toCreate : List RecordConfig
  toDelete : List RecordConfig
  toModify : List (RecordConfig × RecordConfig)
deriving Repr, DecidableEq

/-- Modelled from the spec: `diff.New(dc).IncrementalDiff(existing)`
(not in src). A key present only in desired goes to to-create; a key
present only in existing goes to to-delete; a key present in both is
compared on type, value and TTL — equal goes to unchanged, different to
to-modify carrying both records. Duplicate existing keys are resolved
earliest-seen; the extras become duplicate deletions. -/
def incrementalDiff (desired existing : List RecordConfig) : DiffResult :=
  let exFirst := dedupByKeyGo [] existing
  { unchanged := desired.filterMap (fun d =>
      (exFirst.find? (fun e => keyOf e == keyOf d)).bind (fun e =>
        if sameContent d e then some (d, e) else none))
    toCreate := desired.filter (fun d =>
      (exFirst.find? (fun e => keyOf e == keyOf d)).isNone)
    toDelete := exFirst.filter (fun e =>
        desired.all (fun d => !(keyOf d == keyOf e)))
      ++ dupExtrasGo [] existing
    toModify := desired.filterMap (fun d =>
      (exFirst.find? (fun e => keyOf e == keyOf d)).bind (fun e =>
        if sameContent d e then none else some (d, e))) }

/-- The SOA pruning loop of `GetDomainCorrections` (`api.go` lines
693-699): every record whose type is not `SOA` is kept. -/
def pruneSOA (records : List RecordConfig) : List RecordConfig :=
  records.filter (fun r => r.rtype != "SOA")

/-- Modelled from the spec: `models.PostProcessRecords` (not in src)
normalizes an already-canonical record list; on the fields this
development reads it changes nothing. -/
def postProcessRecords (records : List RecordConfig) : List RecordConfig :=
  records

/-- The provider mutation a correction schedules: the closure stored in
`Correction.F` calls exactly one of `DeleteRecord`, `CreateRecord`,
`UpdateRecord` with the native record built in the planning loop. -/
inductive CorrectionAction where
  | deleteRecord (r : Record)
  | createRecord (r : Record)
  | updateRecord (r : Record)
deriving Repr, DecidableEq

/-- Modelled from the spec: a `models.Correction` — a human-readable
message plus the scheduled action. -/
structure Correction where
  msg : String
  action : CorrectionAction
deriving Repr, DecidableEq

/-- Modelled from the spec: `Correlation.String` (not in src) renders a
human-readable description of a change. -/
def changeMsg (verb : String) (r : RecordConfig) : String :=
  verb ++ " " ++ r.rtype ++ " " ++ r.name ++ " " ++ r.value

/-- The diff computed inside `GetDomainCorrections`: the desired records
against the existing records with SOA pruned and the rest normalized
(`api.go` lines 693-705). -/
def plannedDiff (dc : DomainConfig) (records : List RecordConfig) :
    DiffResult :=
  incrementalDiff dc.records (postProcessRecords (pruneSOA records))

/-- The planning part of `GetDomainCorrections` (`api.go` lines 680-753),
taking the already-fetched zone records: one delete correction per
to-delete entry (targeting the existing record's native `Original`), one
create correction per to-create entry, and one update correction per
to-modify entry, built from the desired record's fields with the existing
record's native id as the update target and `dc.Name` as the zone id. -/
def getDomainCorrections (dc : DomainConfig)
    (records : List RecordConfig) : List Correction :=
  let d := plannedDiff dc records
  (d.toDelete.map (fun del =>
    { msg := changeMsg "delete" del, action := .deleteRecord del.original }))
  ++ (d.toCreate.map (fun cre =>
    { msg := changeMsg "create" cre
      action := .createRecord
        { rtype := cre.rtype, id := "", zoneId := dc.name, name := cre.name,
          value := cre.value, ttl := cre.ttl } }))
  ++ (d.toModify.map (fun mod =>
    { msg := changeMsg "modify" mod.1
      action := .updateRecord
        { rtype := mod.1.rtype, id := mod.2.original.id, zoneId := dc.name,
          name := mod.1.name, value := mod.1.value, ttl := mod.1.ttl } }))

/-- The update targets scheduled by a correction list. -/
def updatesOf (cs : List Correction) : List Record :=
  cs.filterMap (fun c =>
    match c.action with
    | .updateRecord r => some r
    | _ => none)

/-- The observable outcome of a Go function that may return a value,
return an error, or hit a runtime panic (such as an out-of-range slice
index). -/
inductive Outcome (α : Type) where
  | panics
  | fails (msg : String)
  | ok (a : α)
deriving Repr, DecidableEq

/-- `GetNameservers` from `api.go` (lines 669-677), parameterized by the
result of the `GetZones(domain)` call: an error is propagated, and
otherwise `zones[0].NS` is read without checking that the listing is
nonempty — on an empty listing the slice index panics. -/
def getNameservers (zonesResult : Except String (List Zone)) :
    Outcome (List String) :=
  match zonesResult with
  | .error e => .fails e
  | .ok zones =>
    match zones.get? 0 with
    | none => .panics
    | some z => .ok z.ns

/-- Modelled from the spec: `models.RecordConfig.PopulateFromString`
(not in src), the same per-type value parser as the quoted-string variant
with the default TXT quoting. -/
def populateFromString (rtype value : String) : Option String :=
  Models.parseValue rtype value

/-- The conversion loop of `GetZoneRecords` (`api.go` lines 769-784):
one canonical record per native record, label normalized against the
domain, value parsed under the declared type; the first parse failure
aborts with its error. -/
def convertRecords (domain zoneName : String) :
    List Record → Except String (List RecordConfig)
  | [] => .ok []
  | record :: rest =>
    match populateFromString record.rtype record.value with
    | none => .error ("unparsable record " ++ record.name ++ " " ++
        record.rtype ++ " " ++ record.value)
    | some v =>
      (convertRecords domain zoneName rest).map (fun rcs =>
        { rtype := record.rtype
          name := Models.setLabel record.name domain
          value := v
          ttl := record.ttl % 4294967296
          original := record } :: rcs)

/-- `GetZoneRecords` from `api.go` (lines 756-787), parameterized by the
result of `GetZones(domain)` and by the `GetRecords` call: `zones[0]` is
read without checking that the listing is nonempty — on an empty listing
the slice index panics. -/
def getZoneRecordsOutcome (zonesResult : Except String (List Zone))
    (recordsOf : String → Except String (List Record)) (domain : String) :
    Outcome (List RecordConfig) :=
  match zonesResult with
  | .error e => .fails e
  | .ok zones =>
    match zones.get? 0 with
    | none => .panics
    | some zone =>
      match recordsOf zone.id with
      | .error e => .fails e
      | .ok records =>
        match convertRecords domain zone.name records with
        | .error e => .fails e
        | .ok rcs => .ok rcs

/-- Whether an outcome is an error return (as opposed to a normal return
or a runtime panic). -/
def Outcome.isError {α : Type} : Outcome α → Bool
  | .fails _ => true
  | _ => false

/-- Example native record 1 (page 1 of the paginated listing). -/
def hA : Record :=
  { rtype := "A", id := "1", zoneId := "z1", name := "www",
    value := "1.2.3.4", ttl := 300 }

/-- Example native record 2 (page 1 of the paginated listing). -/
def hB : Record :=
  { rtype := "A", id := "2", zoneId := "z1", name := "www",
    value := "5.6.7.8", ttl := 300 }

/-- Example native record 3 (page 2 of the paginated listing). -/
def hC : Record :=
  { rtype := "MX", id := "3", zoneId := "z1", name := "@",
    value := "10 mail.example.com.", ttl := 600 }

/-- A zone of three records served as two pages of two (`per_page=2`). -/
def hPages : List (List Record) := [[hA, hB], [hC]]

/-- Example desired record: `www A 1.2.3.4` with TTL 300. -/
def hDesired : RecordConfig :=
  { rtype := "A", name := "www", value := "1.2.3.4", ttl := 300,
    original := { rtype := "", id := "", zoneId := "", name := "",
                  value := "", ttl := 0 } }

/-- Example existing record: same content as `hDesired` but TTL 600,
carried by the native record with id `H`. -/
def hExisting : RecordConfig :=
  { rtype := "A", name := "www", value := "1.2.3.4", ttl := 600,
    original := { rtype := "A", id := "H", zoneId := "z1", name := "www",
                  value := "1.2.3.4", ttl := 600 } }

/-- Example desired configuration holding only `hDesired`. -/
def hDC : DomainConfig :=
  { name := "example.com", records := [hDesired] }

end Hetzner

namespace Models

theorem unquoteBody_escapeChars (l : List Char) :
    unquoteBody (escapeChars l ++ ['\"']) = some l := by
  induction l with
  | nil => rfl
  | cons c cs ih =>
    by_cases h : c = '\\' ∨ c = '\"'
    · have hne : ('\\' : Char) ≠ '\"' := by decide
      rw [escapeChars, if_pos h, List.cons_append, unquoteBody.eq_def]
      simp [hne, h, ih]
    · have h1 : c ≠ '\\' := fun hc => h (Or.inl hc)
      have h2 : c ≠ '\"' := fun hc => h (Or.inr hc)
      rw [escapeChars, if_neg h, List.cons_append, unquoteBody.eq_def]
      simp [h1, h2, ih]

theorem parseQuoted_encodeQuoted (s : String) :
    parseQuoted (encodeQuoted s) = some s := by
  have hd : (encodeQuoted s).data = '\"' :: (escapeChars s.data ++ ['\"']) := rfl
  simp only [parseQuoted, hd, unquoteBody_escapeChars]
  cases s
  rfl

end Models

namespace Hetzner

theorem getRecordsLoop_fix (pages : List (List Record)) :
    ∀ (fuel : Nat) (meta : Meta) (response : List Record),
      getRecordsLoop pages fuel meta response = response := by
  intro fuel
  induction fuel with
  | zero => intro meta response; rfl
  | succ n ih =>
    intro meta response
    rw [getRecordsLoop]
    split
    · exact ih _ _
    · rfl

theorem GetRecords_eq_first_page (pages : List (List Record)) :
    GetRecords pages = (pages.get? 0).getD [] := by
  simp only [GetRecords, requestRecords, getRecordsLoop_fix]

/-- Claim C7: the claim states that `GetRecords` returns the complete
record set of a zone whose records span several pages. It does not: the
pagination loop appends each later page's records to `extraResponse`, a
copy that is discarded, so only page 1's records are returned. On a zone
of three records served as two pages, `GetRecords` returns the two
records of page 1 and not the union of the pages. -/
theorem hetzner_getRecords_first_page_only :
    GetRecords hPages = [hA, hB] ∧
    hPages.flatten = [hA, hB, hC] ∧
    GetRecords hPages ≠ hPages.flatten := by
  refine ⟨GetRecords_eq_first_page hPages, rfl, ?_⟩
  rw [GetRecords_eq_first_page hPages]
  decide

/-- Claim C10 (counterexample): the claim states the access of the first
zone is guarded, so that an empty zone listing makes `GetNameservers` and
`GetZoneRecords` return an error. In fact neither guards `zones[0]`: on
an empty listing both hit an out-of-range slice index (a runtime panic),
not an error return. -/
theorem hetzner_unguarded_empty_zones :
    getNameservers (.ok []) = Outcome.panics ∧
    (getNameservers (.ok [])).isError = false ∧
    getZoneRecordsOutcome (.ok []) (fun _ => .ok []) "example.com"
      = Outcome.panics ∧
    (getZoneRecordsOutcome (.ok []) (fun _ => .ok []) "example.com").isError
      = false :=
  ⟨rfl, rfl, rfl, rfl⟩

/-- Claim C10 (amended): whenever the zone listing comes back empty (and
error-free), `GetNameservers` and `GetZoneRecords` reach the unguarded
`zones[0]` index and panic rather than returning an error. -/
theorem hetzner_empty_zones_panic
    (recordsOf : String → Except String (List Record)) (domain : String) :
    getNameservers (.ok []) = Outcome.panics ∧
    getZoneRecordsOutcome (.ok []) recordsOf domain = Outcome.panics :=
  ⟨rfl, rfl⟩

end Hetzner

namespace Hetzner

theorem mem_dedupByKeyGo {x : RecordConfig} :
    ∀ (seen : List (String × String)) (l : List RecordConfig),
      x ∈ dedupByKeyGo seen l → x ∈ l := by
  intro seen l
  induction l generalizing seen with
  | nil => intro h; exact absurd h (by simp [dedupByKeyGo])
  | cons e rest ih =>
    intro h
    rw [dedupByKeyGo] at h
    split at h
    · exact List.mem_cons_of_mem e (ih _ h)
    · rcases List.mem_cons.mp h with h1 | h1
      · exact h1 ▸ List.mem_cons_self e rest
      · exact List.mem_cons_of_mem e (ih _ h1)

theorem mem_dupExtrasGo {x : RecordConfig} :
    ∀ (seen : List (String × String)) (l : List RecordConfig),
      x ∈ dupExtrasGo seen l → x ∈ l := by
  intro seen l
  induction l generalizing seen with
  | nil => intro h; exact absurd h (by simp [dupExtrasGo])
  | cons e rest ih =>
    intro h
    rw [dupExtrasGo] at h
    split at h
    · rcases List.mem_cons.mp h with h1 | h1
      · exact h1 ▸ List.mem_cons_self e rest
      · exact List.mem_cons_of_mem e (ih _ h1)
    · exact List.mem_cons_of_mem e (ih _ h)

theorem mem_pruneSOA {r : RecordConfig} {records : List RecordConfig}
    (h : r ∈ pruneSOA records) : r.rtype ≠ "SOA" := by
  rw [pruneSOA, List.mem_filter] at h
  simpa using h.2

theorem toModify_existing_mem {desired existing : List RecordConfig}
    {p : RecordConfig × RecordConfig}
    (h : p ∈ (incrementalDiff desired existing).toModify) :
    p.2 ∈ existing := by
  rw [incrementalDiff] at h
  rcases List.mem_filterMap.mp h with ⟨d, _, hbind⟩
  rcases ho : (dedupByKeyGo [] existing).find? (fun e => keyOf e == keyOf d)
    with _ | e
  · rw [ho] at hbind; exact absurd hbind (by simp)
  · rw [ho] at hbind
    change (if sameContent d e then none else some (d, e)) = some p at hbind
    split at hbind
    · exact absurd hbind (by simp)
    · have hp : p = (d, e) := (Option.some_inj.mp hbind).symm
      have he : e ∈ dedupByKeyGo [] existing := List.mem_of_find?_eq_some ho
      rw [hp]
      exact mem_dedupByKeyGo _ _ he

/-- Claim C3: the SOA record is removed from the existing set before the
diff is computed — every record surviving the pruning pass has a type
other than SOA, and consequently no entry of the diff's toDelete bucket
and no existing component of its toModify bucket is an SOA record,
whatever the desired configuration contains. -/
theorem hetzner_soa_excluded (dc : DomainConfig)
    (records : List RecordConfig) :
    (∀ r ∈ postProcessRecords (pruneSOA records), r.rtype ≠ "SOA") ∧
    (∀ e ∈ (plannedDiff dc records).toDelete, e.rtype ≠ "SOA") ∧
    (∀ p ∈ (plannedDiff dc records).toModify, p.2.rtype ≠ "SOA") := by
  refine ⟨fun r hr => mem_pruneSOA hr, fun e he => ?_, fun p hp => ?_⟩
  · rw [plannedDiff, incrementalDiff] at he
    simp only [postProcessRecords] at he
    rcases List.mem_append.mp he with h1 | h1
    · exact mem_pruneSOA (mem_dedupByKeyGo _ _ (List.mem_filter.mp h1).1)
    · exact mem_pruneSOA (mem_dupExtrasGo _ _ h1)
  · rw [plannedDiff] at hp
    simp only [postProcessRecords] at hp
    exact mem_pruneSOA (toModify_existing_mem hp)

theorem filterMap_const_none {α β : Type} (l : List α) :
    (l.filterMap fun _ => (none : Option β)) = [] := by
  induction l <;> simp [*]

theorem filterMap_some_comp {α β : Type} (l : List α) (f : α → β) :
    (l.filterMap fun a => some (f a)) = l.map f := by
  induction l <;> simp [*]

theorem updatesOf_getDomainCorrections (dc : DomainConfig)
    (records : List RecordConfig) :
    updatesOf (getDomainCorrections dc records) =
      (plannedDiff dc records).toModify.map (fun p =>
        { rtype := p.1.rtype, id := p.2.original.id, zoneId := dc.name,
          name := p.1.name, value := p.1.value, ttl := p.1.ttl }) := by
  rw [updatesOf, getDomainCorrections]
  simp only [List.filterMap_append, List.filterMap_map, Function.comp_def]
  rw [filterMap_const_none, filterMap_const_none, filterMap_some_comp]
  simp

/-- Claim C9: for every diff entry in toModify the planner emits exactly
one update correction, whose native record carries the existing record's
id as the update target and the desired record's type, name, value and
TTL; in the scenario where desired and existing differ only in TTL
(300 vs 600, existing handle `H`), the whole plan is a single correction
targeting `H` with TTL 300. -/
theorem hetzner_modify_targets_existing_handle :
    (∀ (dc : DomainConfig) (records : List RecordConfig),
      updatesOf (getDomainCorrections dc records) =
        (plannedDiff dc records).toModify.map (fun p =>
          { rtype := p.1.rtype, id := p.2.original.id, zoneId := dc.name,
            name := p.1.name, value := p.1.value, ttl := p.1.ttl })) ∧
    getDomainCorrections hDC [hExisting] =
      [{ msg := changeMsg "modify" hDesired,
         action := CorrectionAction.updateRecord
           { rtype := "A", id := "H", zoneId := "example.com",
             name := "www", value := "1.2.3.4", ttl := 300 } }] :=
  ⟨fun dc records => updatesOf_getDomainCorrections dc records, by decide⟩

end Hetzner

namespace GandiV5

theorem decodeOne_ok {n : DomainRecord} {origin v : String}
    {rc : RecordConfig} (h : decodeOne n origin v = .ok rc) :
    rc.label = Models.setLabel n.rrsetName origin ∧
    rc.rtype = n.rrsetType ∧ rc.ttl = uint32ofInt n.rrsetTTL := by
  by_cases hA : n.rrsetType = "ALIAS"
  · rw [decodeOne, if_pos hA] at h
    cases h
    exact ⟨rfl, hA.symm, rfl⟩
  · rw [decodeOne, if_neg hA] at h
    rcases hp : Models.parseValue n.rrsetType v with _ | v2
    · rw [hp] at h; exact absurd h (by simp)
    · rw [hp] at h; cases h; exact ⟨rfl, rfl, rfl⟩

theorem decodeValues_shape {n : DomainRecord} {origin : String} :
    ∀ {vs : List String} {rcs : List RecordConfig},
      decodeValues n origin vs = .ok rcs →
      rcs.length = vs.length ∧
      ∀ rc ∈ rcs, rc.label = Models.setLabel n.rrsetName origin ∧
        rc.rtype = n.rrsetType ∧ rc.ttl = uint32ofInt n.rrsetTTL := by
  intro vs
  induction vs with
  | nil =>
    intro rcs h
    rw [decodeValues] at h
    cases h
    exact ⟨rfl, by simp⟩
  | cons v vs ih =>
    intro rcs h
    rw [decodeValues] at h
    rcases h1 : decodeOne n origin v with e | rc
    · rw [h1] at h; exact absurd h (by simp)
    · rw [h1] at h
      change (decodeValues n origin vs).map (fun rcs => rc :: rcs)
        = Except.ok rcs at h
      rcases h2 : decodeValues n origin vs with e2 | rest
      · rw [h2] at h; exact absurd h (by simp [Except.map])
      · rw [h2] at h
        change Except.ok (rc :: rest) = Except.ok rcs at h
        cases h
        obtain ⟨hlen, hall⟩ := ih h2
        refine ⟨by simp [hlen], ?_⟩
        intro rc2 hrc2
        rcases List.mem_cons.mp hrc2 with h3 | h3
        · exact h3 ▸ decodeOne_ok h1
        · exact hall rc2 h3

/-- Claim C5: a native RRset that decodes without error yields exactly
one canonical record per value, and every one of those records carries
the RRset's (normalized) label, its type tag and its `uint32` TTL; each
record holds a single value by construction of the record model. -/
theorem gandi_decode_shape (n : DomainRecord) (origin : String)
    (rcs : List RecordConfig) (h : nativeToRecords n origin = .ok rcs) :
    rcs.length = n.rrsetValues.length ∧
    ∀ rc ∈ rcs, rc.label = Models.setLabel n.rrsetName origin ∧
      rc.rtype = n.rrsetType ∧ rc.ttl = uint32ofInt n.rrsetTTL :=
  decodeValues_shape h

/-- Witness for C5: the two-valued A RRset at `www` decodes to exactly
two records sharing label `www`, type `A` and TTL 300. -/
theorem gandi_decode_shape_witness :
    nativeToRecords exRRsetA "example.com" = .ok exDecodedA ∧
    (exDecodedA.length = exRRsetA.rrsetValues.length ∧
      ∀ rc ∈ exDecodedA,
        rc.label = Models.setLabel exRRsetA.rrsetName "example.com" ∧
        rc.rtype = exRRsetA.rrsetType ∧
        rc.ttl = uint32ofInt exRRsetA.rrsetTTL) :=
  ⟨rfl, gandi_decode_shape exRRsetA "example.com" exDecodedA rfl⟩

theorem decodeValues_err {n : DomainRecord} {origin : String}
    (hal : n.rrsetType ≠ "ALIAS") :
    ∀ {vs : List String},
      (∃ v ∈ vs, Models.parseValue n.rrsetType v = none) →
      ∃ e, decodeValues n origin vs = .error e ∧
        e.label = Models.setLabel n.rrsetName origin ∧
        e.rtype = n.rrsetType ∧ e.value ∈ vs ∧
        Models.parseValue n.rrsetType e.value = none := by
  intro vs
  induction vs with
  | nil =>
    rintro ⟨v, hv, _⟩
    exact absurd hv (by simp)
  | cons v vs ih =>
    rintro ⟨w, hw, hwp⟩
    rcases hp : Models.parseValue n.rrsetType v with _ | pv
    · refine ⟨⟨Models.setLabel n.rrsetName origin, n.rrsetType, v⟩, ?_, rfl,
        rfl, List.mem_cons_self v vs, hp⟩
      rw [decodeValues, decodeOne, if_neg hal, hp]
    · have hw2 : w ∈ vs := by
        rcases List.mem_cons.mp hw with h1 | h1
        · rw [h1] at hwp; rw [hwp] at hp; exact absurd hp (by simp)
        · exact h1
      obtain ⟨e, he, h1, h2, h3, h4⟩ := ih ⟨w, hw2, hwp⟩
      refine ⟨e, ?_, h1, h2, List.mem_cons_of_mem v h3, h4⟩
      rw [decodeValues, decodeOne, if_neg hal, hp, he]
      rfl

/-- Claim C8: when some value of a native RRset cannot be parsed against
its declared type, decode returns an error and no records; the error
names the offending label, type and value, and the rendered message
embeds all three. -/
theorem gandi_malformed_error (n : DomainRecord) (origin : String)
    (hal : n.rrsetType ≠ "ALIAS")
    (hbad : ∃ v ∈ n.rrsetValues, Models.parseValue n.rrsetType v = none) :
    ∃ e, nativeToRecords n origin = .error e ∧
      e.label = Models.setLabel n.rrsetName origin ∧
      e.rtype = n.rrsetType ∧ e.value ∈ n.rrsetValues ∧
      Models.parseValue n.rrsetType e.value = none ∧
      e.message = "unparsable record received from gandi: unparsable record "
        ++ e.label ++ " " ++ e.rtype ++ " " ++ e.value := by
  obtain ⟨e, he, h1, h2, h3, h4⟩ := decodeValues_err hal hbad
  exact ⟨e, he, h1, h2, h3, h4, rfl⟩

/-- Witness for C8: an MX RRset whose value has the non-numeric priority
`ten` decodes to an error naming `www`, `MX` and the bad value. -/
theorem gandi_malformed_error_witness :
    exRRsetMx.rrsetType ≠ "ALIAS" ∧
    (∃ v ∈ exRRsetMx.rrsetValues,
      Models.parseValue exRRsetMx.rrsetType v = none) ∧
    ∃ e, nativeToRecords exRRsetMx "example.com" = .error e ∧
      e.label = Models.setLabel exRRsetMx.rrsetName "example.com" ∧
      e.rtype = exRRsetMx.rrsetType ∧ e.value ∈ exRRsetMx.rrsetValues ∧
      Models.parseValue exRRsetMx.rrsetType e.value = none ∧
      e.message = "unparsable record received from gandi: unparsable record "
        ++ e.label ++ " " ++ e.rtype ++ " " ++ e.value :=
  ⟨by decide, ⟨"ten mail.example.com.", by decide, rfl⟩,
    gandi_malformed_error exRRsetMx "example.com" (by decide)
      ⟨"ten mail.example.com.", by decide, rfl⟩⟩

end GandiV5

namespace GandiV5

theorem lookupZr_eq_none {l : List ((String × String) × DomainRecord)}
    {k : String × String} :
    lookupZr l k = none ↔ k ∉ l.map Prod.fst := by
  induction l with
  | nil => simp [lookupZr]
  | cons p rest ih =>
    obtain ⟨k2, zr⟩ := p
    by_cases h : k2 = k
    · subst h; simp [lookupZr]
    · simp [lookupZr, h, ih, Ne.symm h]

theorem lookupZr_append_of_none {l1 : List ((String × String) × DomainRecord)}
    {k : String × String} (l2 : List ((String × String) × DomainRecord))
    (h : lookupZr l1 k = none) :
    lookupZr (l1 ++ l2) k = lookupZr l2 k := by
  induction l1 with
  | nil => rfl
  | cons p rest ih =>
    obtain ⟨k2, zr⟩ := p
    rw [lookupZr] at h
    by_cases h2 : k2 = k
    · rw [if_pos h2] at h; exact absurd h (by simp)
    · rw [if_neg h2] at h
      rw [List.cons_append, lookupZr, if_neg h2]
      exact ih h

theorem lookupZr_append_of_some {l1 : List ((String × String) × DomainRecord)}
    {k : String × String} {zr : DomainRecord}
    (l2 : List ((String × String) × DomainRecord))
    (h : lookupZr l1 k = some zr) :
    lookupZr (l1 ++ l2) k = some zr := by
  induction l1 with
  | nil => exact absurd h (by simp [lookupZr])
  | cons p rest ih =>
    obtain ⟨k2, zr2⟩ := p
    rw [lookupZr] at h
    by_cases h2 : k2 = k
    · rw [if_pos h2] at h
      rw [List.cons_append, lookupZr, if_pos h2]
      exact h
    · rw [if_neg h2] at h
      rw [List.cons_append, lookupZr, if_neg h2]
      exact ih h

theorem lookupZr_updateGroup_self (f : DomainRecord → DomainRecord) :
    ∀ (l : List ((String × String) × DomainRecord)) (k : String × String),
      lookupZr (updateGroup f l k) k = (lookupZr l k).map f := by
  intro l
  induction l with
  | nil => intro k; rfl
  | cons p rest ih =>
    intro k
    obtain ⟨k2, zr⟩ := p
    by_cases h : k2 = k
    · rw [updateGroup, if_pos h, lookupZr, if_pos h, lookupZr, if_pos h]; rfl
    · rw [updateGroup, if_neg h, lookupZr, if_neg h, lookupZr, if_neg h]
      exact ih k

theorem lookupZr_updateGroup_ne (f : DomainRecord → DomainRecord)
    {k k2 : String × String} (h : k2 ≠ k) :
    ∀ (l : List ((String × String) × DomainRecord)),
      lookupZr (updateGroup f l k) k2 = lookupZr l k2 := by
  intro l
  induction l with
  | nil => rfl
  | cons p rest ih =>
    obtain ⟨k3, zr⟩ := p
    by_cases h3 : k3 = k
    · subst h3
      rw [updateGroup, if_pos rfl, lookupZr, lookupZr]
      rw [if_neg (fun he => h he.symm), if_neg (fun he => h he.symm)]
    · rw [updateGroup, if_neg h3, lookupZr, lookupZr]
      by_cases h4 : k3 = k2
      · rw [if_pos h4, if_pos h4]
      · rw [if_neg h4, if_neg h4]
        exact ih

theorem map_fst_updateGroup (f : DomainRecord → DomainRecord) :
    ∀ (l : List ((String × String) × DomainRecord)) (k : String × String),
      (updateGroup f l k).map Prod.fst = l.map Prod.fst := by
  intro l
  induction l with
  | nil => intro k; rfl
  | cons p rest ih =>
    intro k
    obtain ⟨k2, zr⟩ := p
    by_cases h : k2 = k
    · rw [updateGroup, if_pos h]; rfl
    · rw [updateGroup, if_neg h, List.map_cons, List.map_cons, ih]

theorem lookupZr_insertRecord_ne {acc : List ((String × String) × DomainRecord)}
    {r : RecordConfig} {origin : String} {k : String × String}
    (h : r.key ≠ k) :
    lookupZr (insertRecord acc r origin) k = lookupZr acc k := by
  rw [insertRecord]
  rcases ho : lookupZr acc r.key with _ | zr
  · rcases ho2 : lookupZr acc k with _ | zr2
    · rw [lookupZr_append_of_none _ ho2, lookupZr, if_neg h, lookupZr]
    · exact lookupZr_append_of_some _ ho2
  · exact lookupZr_updateGroup_ne _ (fun he => h he.symm) acc

theorem lookupZr_insertRecord_self {acc : List ((String × String) × DomainRecord)}
    {r : RecordConfig} {origin : String} :
    lookupZr (insertRecord acc r origin) r.key =
      some (match lookupZr acc r.key with
            | none => newZr r origin
            | some zr => updateZr zr r) := by
  rw [insertRecord]
  rcases ho : lookupZr acc r.key with _ | zr
  · rw [lookupZr_append_of_none _ ho, lookupZr, if_pos rfl]
  · rw [lookupZr_updateGroup_self, ho]
    rfl

theorem groupOf_nil (k : String × String) : groupOf [] k = [] := rfl

theorem groupOf_cons (r : RecordConfig) (rcs : List RecordConfig)
    (k : String × String) :
    groupOf (r :: rcs) k =
      if r.key = k then r :: groupOf rcs k else groupOf rcs k := by
  rw [groupOf, List.filter_cons]
  by_cases h : r.key = k
  · rw [if_pos h, if_pos (by simp [h])]; rfl
  · rw [if_neg h, if_neg (by simp [h])]; rfl

theorem lookupZr_foldl (origin : String) :
    ∀ (rcs : List RecordConfig)
      (acc : List ((String × String) × DomainRecord)) (k : String × String),
      lookupZr (rcs.foldl (fun keys r => insertRecord keys r origin) acc) k =
        match lookupZr acc k with
        | some zr => some (extendZr zr (groupOf rcs k))
        | none => freshZr origin (groupOf rcs k) := by
  intro rcs
  induction rcs with
  | nil =>
    intro acc k
    rcases ho : lookupZr acc k with _ | zr <;>
      simp [ho, groupOf_nil, extendZr, freshZr]
  | cons r rcs ih =>
    intro acc k
    rw [List.foldl_cons, ih]
    by_cases hk : r.key = k
    · subst hk
      rw [lookupZr_insertRecord_self, groupOf_cons, if_pos rfl]
      rcases ho : lookupZr acc r.key with _ | zr
      · rfl
      · rfl
    · rw [lookupZr_insertRecord_ne hk, groupOf_cons, if_neg hk]

theorem groups_lookup (rcs : List RecordConfig) (origin : String)
    (k : String × String) :
    lookupZr (recordsToNativeGroups rcs origin) k =
      freshZr origin (groupOf rcs k) := by
  rw [recordsToNativeGroups, lookupZr_foldl]
  rfl

end GandiV5

namespace GandiV5

theorem updateZr_rrsetType (zr : DomainRecord) (r : RecordConfig) :
    (updateZr zr r).rrsetType = zr.rrsetType := by
  simp only [updateZr]
  split_ifs <;> rfl

theorem updateZr_rrsetName (zr : DomainRecord) (r : RecordConfig) :
    (updateZr zr r).rrsetName = zr.rrsetName := by
  simp only [updateZr]
  split_ifs <;> rfl

theorem updateZr_rrsetValues (zr : DomainRecord) (r : RecordConfig) :
    (updateZr zr r).rrsetValues = zr.rrsetValues ++ [encodeValue r] := by
  simp only [updateZr]
  split_ifs <;> rfl

theorem updateZr_rrsetTTL (zr : DomainRecord) (r : RecordConfig) :
    (updateZr zr r).rrsetTTL = ttlStep zr.rrsetTTL r.ttl := by
  simp only [updateZr, ttlStep]
  split_ifs <;> rfl

theorem extendZr_rrsetType : ∀ (grp : List RecordConfig) (zr : DomainRecord),
    (extendZr zr grp).rrsetType = zr.rrsetType := by
  intro grp
  induction grp with
  | nil => intro zr; rfl
  | cons r grp ih =>
    intro zr
    rw [extendZr, List.foldl_cons]
    rw [show (List.foldl updateZr (updateZr zr r) grp)
        = extendZr (updateZr zr r) grp from rfl]
    rw [ih, updateZr_rrsetType]

theorem extendZr_rrsetName : ∀ (grp : List RecordConfig) (zr : DomainRecord),
    (extendZr zr grp).rrsetName = zr.rrsetName := by
  intro grp
  induction grp with
  | nil => intro zr; rfl
  | cons r grp ih =>
    intro zr
    rw [extendZr, List.foldl_cons]
    rw [show (List.foldl updateZr (updateZr zr r) grp)
        = extendZr (updateZr zr r) grp from rfl]
    rw [ih, updateZr_rrsetName]

theorem extendZr_rrsetValues : ∀ (grp : List RecordConfig) (zr : DomainRecord),
    (extendZr zr grp).rrsetValues = zr.rrsetValues ++ grp.map encodeValue := by
  intro grp
  induction grp with
  | nil => intro zr; simp [extendZr]
  | cons r grp ih =>
    intro zr
    rw [extendZr, List.foldl_cons]
    rw [show (List.foldl updateZr (updateZr zr r) grp)
        = extendZr (updateZr zr r) grp from rfl]
    rw [ih, updateZr_rrsetValues, List.map_cons, List.append_assoc]
    rfl

theorem extendZr_rrsetTTL : ∀ (grp : List RecordConfig) (zr : DomainRecord),
    (extendZr zr grp).rrsetTTL =
      (grp.map RecordConfig.ttl).foldl ttlStep zr.rrsetTTL := by
  intro grp
  induction grp with
  | nil => intro zr; rfl
  | cons r grp ih =>
    intro zr
    rw [extendZr, List.foldl_cons]
    rw [show (List.foldl updateZr (updateZr zr r) grp)
        = extendZr (updateZr zr r) grp from rfl]
    rw [ih, updateZr_rrsetTTL, List.map_cons, List.foldl_cons]

theorem map_fst_insertRecord (acc : List ((String × String) × DomainRecord))
    (r : RecordConfig) (origin : String) :
    (insertRecord acc r origin).map Prod.fst =
      if r.key ∈ acc.map Prod.fst then acc.map Prod.fst
      else acc.map Prod.fst ++ [r.key] := by
  rw [insertRecord]
  rcases ho : lookupZr acc r.key with _ | zr
  · rw [if_neg (lookupZr_eq_none.mp ho), List.map_append]
    rfl
  · have hin : r.key ∈ acc.map Prod.fst := by
      by_contra hmem
      rw [← lookupZr_eq_none] at hmem
      rw [ho] at hmem
      exact absurd hmem (by simp)
    rw [map_fst_updateGroup, if_pos hin]

theorem map_fst_foldl (origin : String) :
    ∀ (rcs : List RecordConfig)
      (acc : List ((String × String) × DomainRecord)),
      ((rcs.foldl (fun keys r => insertRecord keys r origin) acc).map
        Prod.fst) =
        rcs.foldl (fun ks r => if r.key ∈ ks then ks else ks ++ [r.key])
          (acc.map Prod.fst) := by
  intro rcs
  induction rcs with
  | nil => intro acc; rfl
  | cons r rcs ih =>
    intro acc
    rw [List.foldl_cons, List.foldl_cons, ih, map_fst_insertRecord]

theorem map_fst_groups (rcs : List RecordConfig) (origin : String) :
    (recordsToNativeGroups rcs origin).map Prod.fst = firstKeys rcs := by
  rw [recordsToNativeGroups, firstKeys, map_fst_foldl]
  rfl

theorem foldl_keys_nodup :
    ∀ (rcs : List RecordConfig) (ks : List (String × String)), ks.Nodup →
      (rcs.foldl (fun ks r => if r.key ∈ ks then ks else ks ++ [r.key])
        ks).Nodup := by
  intro rcs
  induction rcs with
  | nil => intro ks h; exact h
  | cons r rcs ih =>
    intro ks h
    rw [List.foldl_cons]
    by_cases hm : r.key ∈ ks
    · rw [if_pos hm]; exact ih ks h
    · rw [if_neg hm]
      refine ih _ (List.nodup_append.mpr ⟨h, List.nodup_singleton _, ?_⟩)
      intro a ha ha2
      rw [List.mem_singleton] at ha2
      exact hm (ha2 ▸ ha)

theorem firstKeys_nodup (rcs : List RecordConfig) :
    (firstKeys rcs).Nodup :=
  foldl_keys_nodup rcs [] List.nodup_nil

theorem mem_foldl_keys :
    ∀ (rcs : List RecordConfig) (ks : List (String × String))
      (k : String × String),
      k ∈ rcs.foldl (fun ks r => if r.key ∈ ks then ks else ks ++ [r.key]) ks
        ↔ k ∈ ks ∨ k ∈ rcs.map RecordConfig.key := by
  intro rcs
  induction rcs with
  | nil => intro ks k; simp
  | cons r rcs ih =>
    intro ks k
    rw [List.foldl_cons]
    by_cases hm : r.key ∈ ks
    · rw [if_pos hm, ih]
      simp only [List.map_cons, List.mem_cons]
      constructor
      · rintro (h | h)
        · exact Or.inl h
        · exact Or.inr (Or.inr h)
      · rintro (h | h | h)
        · exact Or.inl h
        · exact Or.inl (h ▸ hm)
        · exact Or.inr h
    · rw [if_neg hm, ih]
      simp only [List.mem_append, List.map_cons, List.mem_cons,
        List.mem_singleton, List.not_mem_nil, or_false]
      tauto

theorem mem_firstKeys (rcs : List RecordConfig) (k : String × String) :
    k ∈ firstKeys rcs ↔ k ∈ rcs.map RecordConfig.key := by
  rw [firstKeys, mem_foldl_keys]
  simp

end GandiV5

namespace GandiV5

theorem lookupZr_some_mem :
    ∀ {l : List ((String × String) × DomainRecord)} {k : String × String}
      {zr : DomainRecord}, lookupZr l k = some zr → (k, zr) ∈ l := by
  intro l
  induction l with
  | nil => intro k zr h; exact absurd h (by simp [lookupZr])
  | cons p rest ih =>
    intro k zr h
    obtain ⟨k2, zr2⟩ := p
    rw [lookupZr] at h
    by_cases h2 : k2 = k
    · rw [if_pos h2] at h
      cases h
      exact h2 ▸ List.mem_cons_self _ _
    · rw [if_neg h2] at h
      exact List.mem_cons_of_mem _ (ih h)

theorem mem_lookupZr_of_nodup :
    ∀ {l : List ((String × String) × DomainRecord)}
      (_ : (l.map Prod.fst).Nodup) {k : String × String} {zr : DomainRecord},
      (k, zr) ∈ l → lookupZr l k = some zr := by
  intro l
  induction l with
  | nil => intro _ k zr h; exact absurd h (by simp)
  | cons p rest ih =>
    intro hnd k zr h
    obtain ⟨k2, zr2⟩ := p
    rw [List.map_cons, List.nodup_cons] at hnd
    rcases List.mem_cons.mp h with h1 | h1
    · rw [Prod.mk.injEq] at h1
      rw [lookupZr, if_pos h1.1.symm, h1.2]
    · have hne : k2 ≠ k := by
        intro he
        exact hnd.1 (he ▸ (List.mem_map.mpr ⟨(k, zr), h1, rfl⟩))
      rw [lookupZr, if_neg hne]
      exact ih hnd.2 h1

theorem range_filterMap_get {α β : Type} (l : List α) (g : α → β) :
    (List.range l.length).filterMap (fun i => (l.get? i).map g) = l.map g := by
  induction l with
  | nil => rfl
  | cons a l ih =>
    rw [List.length_cons, List.range_succ_eq_map, List.filterMap_cons,
      List.filterMap_map]
    have h2 : ((fun i => ((a :: l).get? i).map g) ∘ Nat.succ)
        = fun i => (l.get? i).map g := by
      funext i
      rfl
    rw [h2, ih]
    rfl

theorem filterMap_map_option {α β γ : Type} (l : List α) (h : α → Option β)
    (g : β → γ) :
    l.filterMap (fun a => (h a).map g) = (l.filterMap h).map g := by
  induction l with
  | nil => rfl
  | cons a l ih => cases ha : h a <;> simp [List.filterMap_cons, ha, ih]

theorem recordsToNative_perm (rcs : List RecordConfig) (origin : String)
    (order : List Nat)
    (horder : order.Perm (List.range (recordsToNativeGroups rcs origin).length)) :
    (recordsToNative rcs origin order).Perm
      ((recordsToNativeGroups rcs origin).map Prod.snd) := by
  rw [recordsToNative]
  have h := horder.filterMap
    (fun i => ((recordsToNativeGroups rcs origin).get? i).map Prod.snd)
  rw [range_filterMap_get] at h
  exact h

theorem key_fst {r : RecordConfig} : r.key.1 = r.label := rfl

theorem key_snd {r : RecordConfig} : r.key.2 = r.rtype := rfl

theorem mem_groupOf_key {rcs : List RecordConfig} {k : String × String}
    {r : RecordConfig} (h : r ∈ groupOf rcs k) : r ∈ rcs ∧ r.key = k := by
  rw [groupOf, List.mem_filter] at h
  exact ⟨h.1, of_decide_eq_true h.2⟩

theorem self_mem_groupOf {rcs : List RecordConfig} {r : RecordConfig}
    (h : r ∈ rcs) : r ∈ groupOf rcs r.key := by
  rw [groupOf, List.mem_filter]
  exact ⟨h, by simp⟩

theorem groups_entry_fields {rcs : List RecordConfig} {origin : String}
    {k : String × String} {zr : DomainRecord}
    (h : lookupZr (recordsToNativeGroups rcs origin) k = some zr) :
    zr.rrsetName = substApex k.1 origin ∧ zr.rrsetType = k.2 ∧
    zr.rrsetValues = (groupOf rcs k).map encodeValue := by
  rw [groups_lookup] at h
  rcases hg : groupOf rcs k with _ | ⟨r0, rest⟩
  · rw [hg] at h; exact absurd h (by simp [freshZr])
  · rw [hg, freshZr] at h
    have hz : zr = extendZr (newZr r0 origin) rest := (Option.some_inj.mp h).symm
    have hr0 : r0.key = k := by
      have hmem : r0 ∈ groupOf rcs k := by
        rw [hg]; exact List.mem_cons_self r0 rest
      exact (mem_groupOf_key hmem).2
    subst hz
    refine ⟨?_, ?_, ?_⟩
    · rw [extendZr_rrsetName]
      rw [show (newZr r0 origin).rrsetName = substApex r0.label origin from rfl]
      rw [← key_fst, hr0]
    · rw [extendZr_rrsetType]
      rw [show (newZr r0 origin).rrsetType = r0.rtype from rfl]
      rw [← key_snd, hr0]
    · rw [extendZr_rrsetValues]
      rfl

theorem uint32ofInt_coe {n : Nat} (h : n < 4294967296) :
    uint32ofInt (n : Int) = n := by
  rw [uint32ofInt, Int.emod_eq_of_lt (by positivity) (by exact_mod_cast h)]
  simp

theorem ttlStep_coe_min {cur t : Nat} (hcur : cur < 4294967296) :
    ttlStep (cur : Int) t = ((min cur t : Nat) : Int) := by
  rw [ttlStep, uint32ofInt_coe hcur]
  by_cases h : t = cur
  · subst h
    rw [if_neg (by simp), min_self]
  · rw [if_pos h]
    by_cases h2 : t < cur
    · rw [if_pos h2, min_eq_right (le_of_lt h2)]
    · rw [if_neg h2, min_eq_left (le_of_not_lt h2)]

theorem foldl_ttlStep_min :
    ∀ (ts : List Nat) (cur : Nat), cur < 4294967296 →
      (∀ t ∈ ts, t < 4294967296) →
      ts.foldl ttlStep (cur : Int) = ((ts.foldl min cur : Nat) : Int) := by
  intro ts
  induction ts with
  | nil => intro cur _ _; rfl
  | cons t ts ih =>
    intro cur hcur hts
    rw [List.foldl_cons, List.foldl_cons, ttlStep_coe_min hcur]
    exact ih (min cur t)
      (lt_of_le_of_lt (min_le_left cur t) hcur)
      (fun x hx => hts x (List.mem_cons_of_mem t hx))

theorem foldl_min_le_init : ∀ (ts : List Nat) (cur : Nat),
    ts.foldl min cur ≤ cur := by
  intro ts
  induction ts with
  | nil => intro cur; exact le_refl cur
  | cons t ts ih =>
    intro cur
    rw [List.foldl_cons]
    exact le_trans (ih (min cur t)) (min_le_left cur t)

theorem foldl_min_le_mem : ∀ (ts : List Nat) (cur t : Nat), t ∈ ts →
    ts.foldl min cur ≤ t := by
  intro ts
  induction ts with
  | nil => intro cur t h; exact absurd h (by simp)
  | cons t2 ts ih =>
    intro cur t h
    rw [List.foldl_cons]
    rcases List.mem_cons.mp h with h1 | h1
    · rw [h1]
      exact le_trans (foldl_min_le_init ts (min cur t2)) (min_le_right cur t2)
    · exact ih (min cur t2) t h1

theorem foldl_min_mem : ∀ (ts : List Nat) (cur : Nat),
    ts.foldl min cur = cur ∨ ts.foldl min cur ∈ ts := by
  intro ts
  induction ts with
  | nil => intro cur; exact Or.inl rfl
  | cons t ts ih =>
    intro cur
    rw [List.foldl_cons]
    rcases ih (min cur t) with h | h
    · rcases min_choice cur t with h2 | h2
      · exact Or.inl (h.trans h2)
      · refine Or.inr ?_
        rw [h, h2]
        exact List.mem_cons_self t ts
    · exact Or.inr (List.mem_cons_of_mem t h)

theorem minList_spec {l : List Nat} {m : Nat} (h : minList l = some m) :
    m ∈ l ∧ ∀ x ∈ l, m ≤ x := by
  rcases l with _ | ⟨t, ts⟩
  · exact absurd h (by simp [minList])
  · rw [minList] at h
    have hm : m = ts.foldl min t := (Option.some_inj.mp h).symm
    subst hm
    constructor
    · rcases foldl_min_mem ts t with h1 | h1
      · rw [h1]; exact List.mem_cons_self t ts
      · exact List.mem_cons_of_mem t h1
    · intro x hx
      rcases List.mem_cons.mp hx with h1 | h1
      · exact h1 ▸ foldl_min_le_init ts t
      · exact foldl_min_le_mem ts t x h1

theorem minList_perm {l1 l2 : List Nat} (h : l1.Perm l2) :
    minList l1 = minList l2 := by
  rcases l1 with _ | ⟨a, l1⟩
  · rw [← h.nil_eq]
  · rcases l2 with _ | ⟨b, l2⟩
    · exact absurd h.length_eq (by simp)
    · obtain ⟨hmem1, hle1⟩ := minList_spec (rfl :
        minList (a :: l1) = some (l1.foldl min a))
      obtain ⟨hmem2, hle2⟩ := minList_spec (rfl :
        minList (b :: l2) = some (l2.foldl min b))
      rw [minList, minList]
      exact congrArg some (le_antisymm
        (hle1 _ (h.mem_iff.mpr hmem2))
        (hle2 _ (h.mem_iff.mp hmem1)))

end GandiV5

namespace GandiV5

theorem group_ttl_eq_minList (origin : String) {rcs : List RecordConfig}
    {k : String × String} (hne : groupOf rcs k ≠ [])
    (hbound : ∀ r ∈ groupOf rcs k, r.ttl < 4294967296) :
    ∃ zr m, lookupZr (recordsToNativeGroups rcs origin) k = some zr ∧
      minList ((groupOf rcs k).map RecordConfig.ttl) = some m ∧
      zr.rrsetTTL = (m : Int) := by
  rcases hg : groupOf rcs k with _ | ⟨r0, rest⟩
  · exact absurd hg hne
  · have hlk : lookupZr (recordsToNativeGroups rcs origin) k
        = some (extendZr (newZr r0 origin) rest) := by
      rw [groups_lookup, hg, freshZr]
    refine ⟨extendZr (newZr r0 origin) rest,
      (rest.map RecordConfig.ttl).foldl min r0.ttl, hlk, rfl, ?_⟩
    rw [extendZr_rrsetTTL]
    rw [show (newZr r0 origin).rrsetTTL = (r0.ttl : Int) from rfl]
    have hb0 : r0.ttl < 4294967296 :=
      hbound r0 (hg ▸ List.mem_cons_self r0 rest)
    have hbr : ∀ t ∈ rest.map RecordConfig.ttl, t < 4294967296 := by
      intro t ht
      rcases List.mem_map.mp ht with ⟨r2, hr2, hrt⟩
      exact hrt ▸ hbound r2 (hg ▸ List.mem_cons_of_mem r0 hr2)
    exact foldl_ttlStep_min (rest.map RecordConfig.ttl) r0.ttl hb0 hbr

/-- Claim C2: for every key whose group of canonical records is nonempty
(with `uint32`-ranged TTLs), the one RRset that encode allocates for the
key carries the minimum of the group's TTLs — independently of the order
the records are supplied, since any permutation of the input yields the
same RRset TTL for the key. -/
theorem gandi_ttl_merge_min (rcs rcs2 : List RecordConfig) (origin : String)
    (k : String × String) (hperm : rcs2.Perm rcs)
    (hne : groupOf rcs k ≠ [])
    (hbound : ∀ r ∈ groupOf rcs k, r.ttl < 4294967296) :
    ∃ m, minList ((groupOf rcs k).map RecordConfig.ttl) = some m ∧
      (∃ zr, lookupZr (recordsToNativeGroups rcs origin) k = some zr ∧
        zr.rrsetTTL = (m : Int)) ∧
      (∃ zr2, lookupZr (recordsToNativeGroups rcs2 origin) k = some zr2 ∧
        zr2.rrsetTTL = (m : Int)) := by
  have hgperm : (groupOf rcs2 k).Perm (groupOf rcs k) := by
    unfold groupOf
    exact hperm.filter _
  have hne2 : groupOf rcs2 k ≠ [] := by
    intro h0
    rw [h0] at hgperm
    exact hne hgperm.nil_eq.symm
  have hbound2 : ∀ r ∈ groupOf rcs2 k, r.ttl < 4294967296 :=
    fun r hr => hbound r (hgperm.mem_iff.mp hr)
  obtain ⟨zr, m, hlk, hmin, httl⟩ :=
    group_ttl_eq_minList origin hne hbound
  obtain ⟨zr2, m2, hlk2, hmin2, httl2⟩ :=
    group_ttl_eq_minList origin hne2 hbound2
  have hm : m2 = m := by
    have he := minList_perm (hgperm.map RecordConfig.ttl)
    rw [hmin2, hmin] at he
    exact Option.some_inj.mp he
  exact ⟨m, hmin, ⟨zr, hlk, httl⟩, ⟨zr2, hlk2, by rw [httl2, hm]⟩⟩

/-- Witness for C2: encoding the two records `www A` with TTLs 300 and
3600 (in either order) produces the RRset for key (`www`, `A`) with TTL
300, the minimum. -/
theorem gandi_ttl_merge_min_witness :
    ([exT2, exT1].Perm [exT1, exT2]) ∧
    (groupOf [exT1, exT2] ("www", "A") ≠ []) ∧
    (∀ r ∈ groupOf [exT1, exT2] ("www", "A"), r.ttl < 4294967296) ∧
    minList ((groupOf [exT1, exT2] ("www", "A")).map RecordConfig.ttl)
      = some 300 ∧
    ∃ m, minList ((groupOf [exT1, exT2] ("www", "A")).map RecordConfig.ttl)
        = some m ∧
      (∃ zr, lookupZr (recordsToNativeGroups [exT1, exT2] "example.com")
          ("www", "A") = some zr ∧ zr.rrsetTTL = (m : Int)) ∧
      (∃ zr2, lookupZr (recordsToNativeGroups [exT2, exT1] "example.com")
          ("www", "A") = some zr2 ∧ zr2.rrsetTTL = (m : Int)) :=
  ⟨by decide, by decide, by decide, by decide,
    gandi_ttl_merge_min [exT1, exT2] [exT2, exT1] "example.com" ("www", "A")
      (by decide) (by decide) (by decide)⟩

end GandiV5

namespace GandiV5

theorem substApex_inj {l1 l2 origin : String} (h1 : l1 ≠ origin)
    (h2 : l2 ≠ origin) (he : substApex l1 origin = substApex l2 origin) :
    l1 = l2 := by
  rw [substApex, substApex] at he
  by_cases c1 : l1 = "@" <;> by_cases c2 : l2 = "@"
  · rw [c1, c2]
  · rw [if_pos c1, if_neg c2] at he
    exact absurd he.symm h2
  · rw [if_neg c1, if_pos c2] at he
    exact absurd he h1
  · rw [if_neg c1, if_neg c2] at he
    exact he

theorem firstKeys_label_ne {rcs : List RecordConfig} {origin : String}
    (hlab : ∀ r ∈ rcs, r.label ≠ origin) {k : String × String}
    (hk : k ∈ firstKeys rcs) : k.1 ≠ origin := by
  rw [mem_firstKeys] at hk
  rcases List.mem_map.mp hk with ⟨r, hr, hrk⟩
  rw [← hrk, key_fst]
  exact hlab r hr

/-- Claim C4: encoding allocates exactly one RRset per distinct input
key: the output has one RRset per element of the insertion-ordered key
list, no two RRsets in it share a (name, type) pair, and every input
record's encoded value appears in the value list of the RRset of its
key. -/
theorem gandi_one_rrset_per_key (rcs : List RecordConfig) (origin : String)
    (order : List Nat)
    (hlab : ∀ r ∈ rcs, r.label ≠ origin)
    (horder : order.Perm
      (List.range (recordsToNativeGroups rcs origin).length)) :
    ((recordsToNative rcs origin order).map
        (fun zr => (zr.rrsetName, zr.rrsetType))).Nodup ∧
    (recordsToNative rcs origin order).length = (firstKeys rcs).length ∧
    ∀ r ∈ rcs, ∃ zr ∈ recordsToNative rcs origin order,
      zr.rrsetName = substApex r.label origin ∧ zr.rrsetType = r.rtype ∧
      encodeValue r ∈ zr.rrsetValues := by
  have hperm := recordsToNative_perm rcs origin order horder
  have hGnodup : ((recordsToNativeGroups rcs origin).map Prod.fst).Nodup := by
    rw [map_fst_groups]
    exact firstKeys_nodup rcs
  refine ⟨?_, ?_, ?_⟩
  · have hmperm := hperm.map (fun zr => (zr.rrsetName, zr.rrsetType))
    rw [hmperm.nodup_iff]
    rw [List.map_map]
    have hpt : ∀ p ∈ recordsToNativeGroups rcs origin,
        ((fun zr => (zr.rrsetName, zr.rrsetType)) ∘ Prod.snd) p
          = (fun k => (substApex k.1 origin, k.2)) p.1 := by
      intro p hp
      obtain ⟨k, zr⟩ := p
      obtain ⟨hn, ht, _⟩ := groups_entry_fields (mem_lookupZr_of_nodup hGnodup hp)
      simp [hn, ht]
    rw [List.map_congr_left hpt]
    rw [show (fun p : (String × String) × DomainRecord =>
        (fun k : String × String => (substApex k.1 origin, k.2)) p.1)
      = ((fun k : String × String => (substApex k.1 origin, k.2)) ∘ Prod.fst)
      from rfl]
    rw [← List.map_map]
    rw [map_fst_groups]
    refine List.Nodup.map_on ?_ (firstKeys_nodup rcs)
    intro x hx y hy hxy
    rw [Prod.mk.injEq] at hxy
    have hinj := substApex_inj (firstKeys_label_ne hlab hx)
      (firstKeys_label_ne hlab hy) hxy.1
    exact Prod.ext hinj hxy.2
  · rw [hperm.length_eq, List.length_map, ← map_fst_groups rcs origin,
      List.length_map]
  · intro r hr
    have hg : r ∈ groupOf rcs r.key := self_mem_groupOf hr
    have hne : groupOf rcs r.key ≠ [] := fun h0 => by
      rw [h0] at hg
      exact absurd hg (by simp)
    rcases hge : groupOf rcs r.key with _ | ⟨r0, rest⟩
    · exact absurd hge hne
    · have hlk : lookupZr (recordsToNativeGroups rcs origin) r.key
          = some (extendZr (newZr r0 origin) rest) := by
        rw [groups_lookup, hge, freshZr]
      obtain ⟨hn, ht, hv⟩ := groups_entry_fields hlk
      refine ⟨extendZr (newZr r0 origin) rest, ?_, ?_, ?_, ?_⟩
      · have hmem : (r.key, extendZr (newZr r0 origin) rest)
            ∈ recordsToNativeGroups rcs origin := lookupZr_some_mem hlk
        exact hperm.mem_iff.mpr
          (List.mem_map.mpr ⟨_, hmem, rfl⟩)
      · rw [hn, key_fst]
      · rw [ht, key_snd]
      · rw [hv]
        exact List.mem_map.mpr ⟨r, hg, rfl⟩

/-- Witness for C4: two records with the distinct keys (`www`, `A`) and
(apex, `TXT`) encode to two RRsets with distinct (name, type) pairs, one
per key, each containing its record's encoded value. -/
theorem gandi_one_rrset_per_key_witness :
    (∀ r ∈ [exA, exTxt], r.label ≠ "example.com") ∧
    ((recordsToNative [exA, exTxt] "example.com" [0, 1]).map
        (fun zr => (zr.rrsetName, zr.rrsetType))).Nodup ∧
    (recordsToNative [exA, exTxt] "example.com" [0, 1]).length
      = (firstKeys [exA, exTxt]).length ∧
    ∀ r ∈ [exA, exTxt], ∃ zr ∈ recordsToNative [exA, exTxt] "example.com" [0, 1],
      zr.rrsetName = substApex r.label "example.com" ∧
      zr.rrsetType = r.rtype ∧ encodeValue r ∈ zr.rrsetValues :=
  ⟨by decide,
    gandi_one_rrset_per_key [exA, exTxt] "example.com" [0, 1]
      (by decide) (by decide)⟩

/-- Claim C6 (counterexample): the claim states the output order of
`recordsToNative` is deterministic and stable across runs, RRsets
appearing in group-insertion order. The final loop iterates a Go map,
whose iteration order is unspecified: both `[0, 1]` and `[1, 0]` are
admissible enumerations of the two groups of this input, and they give
different outputs, so the output order is not determined by the input. -/
theorem gandi_output_order_map_dependent :
    List.Perm [1, 0]
      (List.range (recordsToNativeGroups [exA, exB] "example.com").length) ∧
    recordsToNative [exA, exB] "example.com" [1, 0] ≠
      recordsToNative [exA, exB] "example.com" [0, 1] := by
  decide

/-- Claim C6 (amended): within every RRset the values appear in the
supply order of the canonical records, and the collection of RRsets is
determined by the input — the output is a permutation of the
insertion-ordered group list — but the relative order of the RRsets
follows the unspecified Go map iteration order, so it is not guaranteed
to be the insertion order nor identical across runs. -/
theorem gandi_output_perm_of_groups (rcs : List RecordConfig)
    (origin : String) (order : List Nat)
    (horder : order.Perm
      (List.range (recordsToNativeGroups rcs origin).length)) :
    (recordsToNative rcs origin order).Perm
      ((recordsToNativeGroups rcs origin).map Prod.snd) ∧
    ∀ k zr, lookupZr (recordsToNativeGroups rcs origin) k = some zr →
      zr.rrsetValues = (groupOf rcs k).map encodeValue :=
  ⟨recordsToNative_perm rcs origin order horder,
    fun _ _ h => (groups_entry_fields h).2.2⟩

/-- Witness for C6 (amended): the reversed enumeration `[1, 0]` of the
two groups yields a permutation of the group list, with each RRset's
values in supply order. -/
theorem gandi_output_perm_of_groups_witness :
    (recordsToNative [exA, exB] "example.com" [1, 0]).Perm
      ((recordsToNativeGroups [exA, exB] "example.com").map Prod.snd) ∧
    ∀ k zr, lookupZr (recordsToNativeGroups [exA, exB] "example.com") k
        = some zr →
      zr.rrsetValues = (groupOf [exA, exB] k).map encodeValue :=
  gandi_output_perm_of_groups [exA, exB] "example.com" [1, 0] (by decide)

end GandiV5

namespace GandiV5

theorem foldl_insert_of_fresh (origin : String) :
    ∀ (rcs : List RecordConfig)
      (acc : List ((String × String) × DomainRecord)),
      (∀ r ∈ rcs, r.key ∉ acc.map Prod.fst) →
      (rcs.map RecordConfig.key).Nodup →
      rcs.foldl (fun keys r => insertRecord keys r origin) acc =
        acc ++ rcs.map (fun r => (r.key, newZr r origin)) := by
  intro rcs
  induction rcs with
  | nil => intro acc _ _; simp
  | cons r rcs ih =>
    intro acc hfresh hnd
    rw [List.map_cons, List.nodup_cons] at hnd
    have hlk : lookupZr acc r.key = none :=
      lookupZr_eq_none.mpr (hfresh r (List.mem_cons_self r rcs))
    rw [List.foldl_cons,
      show insertRecord acc r origin = acc ++ [(r.key, newZr r origin)]
        from by rw [insertRecord, hlk]]
    rw [ih (acc ++ [(r.key, newZr r origin)]) ?fresh hnd.2]
    · rw [List.append_assoc]
      rfl
    case fresh =>
      intro r2 hr2
      rw [List.map_append, List.mem_append]
      rintro (h | h)
      · exact hfresh r2 (List.mem_cons_of_mem r hr2) h
      · simp only [List.map_cons, List.map_nil, List.mem_singleton] at h
        exact hnd.1 (h ▸ List.mem_map.mpr ⟨r2, hr2, rfl⟩)

theorem groups_nodup_keys (rcs : List RecordConfig) (origin : String)
    (hkeys : (rcs.map RecordConfig.key).Nodup) :
    recordsToNativeGroups rcs origin =
      rcs.map (fun r => (r.key, newZr r origin)) := by
  rw [recordsToNativeGroups,
    foldl_insert_of_fresh origin rcs [] (by simp) hkeys]
  rfl

theorem setLabel_substApex {l origin : String}
    (h : l = "@" ∨ (l ≠ "" ∧ l ≠ origin ∧ l ≠ origin ++ "." ∧
      l.endsWith ("." ++ origin) = false)) :
    Models.setLabel (substApex l origin) origin = l := by
  by_cases hat : l = "@"
  · subst hat
    rw [substApex, if_pos rfl, Models.setLabel,
      if_pos (Or.inr (Or.inr (Or.inl rfl)))]
  · rcases h with h | ⟨h1, h2, h3, h4⟩
    · exact absurd h hat
    · rw [substApex, if_neg hat, Models.setLabel, if_neg ?c1, if_neg ?c2]
      case c1 =>
        rintro (h | h | h | h)
        · exact hat h
        · exact h1 h
        · exact h2 h
        · exact h3 h
      case c2 =>
        rw [h4]
        exact Bool.false_ne_true

theorem decodeOne_newZr {origin : String} {r : RecordConfig}
    (hc : Canonical origin r) :
    decodeOne (newZr r origin) origin (encodeValue r)
      = .ok (decodedOf origin r) := by
  obtain ⟨hlab, httl, hval⟩ := hc
  have h1 : Models.setLabel (newZr r origin).rrsetName origin = r.label :=
    setLabel_substApex hlab
  have h2 : uint32ofInt (newZr r origin).rrsetTTL = r.ttl :=
    uint32ofInt_coe httl
  by_cases hA : r.rtype = "ALIAS"
  · have h3 : encodeValue r = r.value := by
      rw [encodeValue, if_neg]
      rw [hA]
      decide
    rw [decodeOne, if_pos (show (newZr r origin).rrsetType = "ALIAS" from hA),
      decodedOf]
    simp only [h1, h2, h3, hA]
  · have hpv : Models.parseValue r.rtype (encodeValue r) = some r.value :=
      hval.resolve_left hA
    rw [decodeOne,
      if_neg (show ¬(newZr r origin).rrsetType = "ALIAS" from hA)]
    rw [show (newZr r origin).rrsetType = r.rtype from rfl, hpv, decodedOf]
    simp only [h1, h2]

theorem nativeToRecords_newZr {origin : String} {r : RecordConfig}
    (hc : Canonical origin r) :
    nativeToRecords (newZr r origin) origin = .ok [decodedOf origin r] := by
  rw [nativeToRecords,
    show (newZr r origin).rrsetValues = [encodeValue r] from rfl,
    decodeValues, decodeOne_newZr hc, decodeValues]
  rfl

theorem decodeAll_newZr (origin : String) :
    ∀ (rs : List RecordConfig), (∀ r ∈ rs, Canonical origin r) →
      decodeAll origin (rs.map (fun r => newZr r origin)) =
        .ok (rs.map (decodedOf origin)) := by
  intro rs
  induction rs with
  | nil => intro _; rfl
  | cons r rs ih =>
    intro hc
    rw [List.map_cons, decodeAll,
      nativeToRecords_newZr (hc r (List.mem_cons_self r rs)),
      ih (fun x hx => hc x (List.mem_cons_of_mem r hx))]
    rfl

theorem range_filterMap_get_self {α : Type} (l : List α) :
    (List.range l.length).filterMap (fun i => l.get? i) = l := by
  induction l with
  | nil => rfl
  | cons a l ih =>
    rw [List.length_cons, List.range_succ_eq_map, List.filterMap_cons,
      List.filterMap_map]
    have h2 : ((fun i => (a :: l).get? i) ∘ Nat.succ) = fun i => l.get? i := by
      funext i
      rfl
    rw [h2, ih]
    rfl

/-- Claim C1: round trip — for a canonical record set with unique keys
(and any admissible map iteration order during encode), decoding every
encoded RRset against the same origin succeeds, and the decoded
canonical set equals the input up to ordering on the semantic content
(label, type, TTL, value). -/
theorem gandi_round_trip (rcs : List RecordConfig) (origin : String)
    (order : List Nat)
    (hkeys : (rcs.map RecordConfig.key).Nodup)
    (hcanon : ∀ r ∈ rcs, Canonical origin r)
    (horder : order.Perm
      (List.range (recordsToNativeGroups rcs origin).length)) :
    ∃ decoded,
      decodeAll origin (recordsToNative rcs origin order) = .ok decoded ∧
      (decoded.map content).Perm (rcs.map content) := by
  have hG := groups_nodup_keys rcs origin hkeys
  have hlen : (recordsToNativeGroups rcs origin).length = rcs.length := by
    rw [hG, List.length_map]
  have hre : recordsToNative rcs origin order
      = (order.filterMap (fun i => rcs.get? i)).map
          (fun r => newZr r origin) := by
    rw [recordsToNative, hG]
    rw [show (fun i =>
        ((rcs.map (fun r => (r.key, newZr r origin))).get? i).map Prod.snd)
        = fun i => (rcs.get? i).map (fun r => newZr r origin) from ?_]
    · exact filterMap_map_option order (fun i => rcs.get? i)
        (fun r => newZr r origin)
    · funext i
      rw [List.get?_map, Option.map_map]
      rfl
  have hsperm : (order.filterMap (fun i => rcs.get? i)).Perm rcs := by
    have h := horder.filterMap (fun i => rcs.get? i)
    rw [hlen, range_filterMap_get_self] at h
    exact h
  have hcanon2 : ∀ r ∈ order.filterMap (fun i => rcs.get? i),
      Canonical origin r := fun r hr => hcanon r (hsperm.mem_iff.mp hr)
  refine ⟨(order.filterMap (fun i => rcs.get? i)).map (decodedOf origin),
    ?_, ?_⟩
  · rw [hre]
    exact decodeAll_newZr origin _ hcanon2
  · rw [List.map_map,
      show (content ∘ decodedOf origin) = content from funext (fun r => rfl)]
    exact hsperm.map content

/-- Witness for C1: the unique-keys set of an `A` record at `www` and an
apex TXT record with an embedded quote round-trips through encode and
decode to the same canonical content, up to ordering. -/
theorem gandi_round_trip_witness :
    ([exA, exTxt].map RecordConfig.key).Nodup ∧
    (∀ r ∈ [exA, exTxt], Canonical "example.com" r) ∧
    ∃ decoded,
      decodeAll "example.com"
        (recordsToNative [exA, exTxt] "example.com" [0, 1]) = .ok decoded ∧
      (decoded.map content).Perm ([exA, exTxt].map content) :=
  ⟨by decide, by decide,
    gandi_round_trip [exA, exTxt] "example.com" [0, 1]
      (by decide) (by decide) (by decide)⟩

end GandiV5
